import Mathlib

/-!
# sbughetti: dependency resolution and installation

A shallow embedding of `sbughetti.go`.

* External processes are parameters.  `jq` is a function from the query
  expression to the combined output (`none` when the process exits with an
  error, which makes `jqConfig` panic).  `os.Stat` and `cmd.Run()` are the
  fields of `Sys`.
* A Go `map[string]bool` is an association list with distinct keys
  (`GoMap`).  Go iterates a map in an unspecified order; `getKeys` lists the
  keys in insertion order, and everything proved about its result (membership,
  absence of duplicates, length) is invariant under permutation.
* A Go panic that nothing recovers ends the process: `Run.panicked` carries
  no value.
* The goroutines of the install loop run in an order that the scheduler
  chooses.  `installLoop` takes that order as an argument and runs the
  `installDep` calls one after the other; the number of calls made for a name
  does not depend on how the calls overlap.
* `getTransitiveDepsOf` is recursive through a loop; the embedding recurses on
  a fuel argument that bounds the recursion depth, and the theorems show that
  every fuel above the number of registry names gives the same result, never
  `Run.outOfFuel`.
-/

namespace Sbughetti

/-! ## Results of a run -/

/-- Outcome of running Go code: a value, an unrecovered panic, or (only in the
embedding) recursion deeper than the fuel allows. -/
inductive Run (α : Type) where
  | ok (a : α)
  | panicked
  | outOfFuel
  deriving DecidableEq, Repr

/-! ## Go library functions used by the program -/

/-- Go `unicode.IsSpace`, by code point. -/
def isSpace (c : Char) : Bool :=
  let n := c.toNat
  (9 ≤ n && n ≤ 13) || n == 32 || n == 0x85 || n == 0xA0 || n == 0x1680 ||
  (0x2000 ≤ n && n ≤ 0x200A) || n == 0x2028 || n == 0x2029 || n == 0x202F ||
  n == 0x205F || n == 0x3000

/-- Worker of `strings.Fields`: `cur` is the current field, reversed. -/
def fieldsGo : List Char → List Char → List String
  | [], cur => if cur.isEmpty then [] else [String.mk cur.reverse]
  | c :: cs, cur =>
    if isSpace c then
      if cur.isEmpty then fieldsGo cs [] else String.mk cur.reverse :: fieldsGo cs []
    else fieldsGo cs (c :: cur)

/-- Go `strings.Fields`: the maximal runs of non-space characters. -/
def strings.Fields (s : String) : List String :=
  fieldsGo s.data []

/-- Go `strings.TrimSpace`: drop leading and trailing white space. -/
def strings.TrimSpace (s : String) : String :=
  String.mk ((s.data.dropWhile isSpace).reverse.dropWhile isSpace).reverse

/-! ## Go maps `map[string]bool` -/

/-- A Go `map[string]bool`: association list, one entry per key. -/
abbrev GoMap := List (String × Bool)

/-- The expression `m[k]`: the stored value, `false` for an absent key. -/
def GoMap.index : GoMap → String → Bool
  | [], _ => false
  | (k', b') :: m, k => if k' = k then b' else GoMap.index m k

/-- The statement `m[k] = b`: overwrite the entry of `k`, or add one. -/
def GoMap.store : GoMap → String → Bool → GoMap
  | [], k, b => [(k, b)]
  | (k', b') :: m, k, b => if k' = k then (k, b) :: m else (k', b') :: GoMap.store m k b

/-- `getKeys`: the keys of the map, one slot per entry (`len(values)`). -/
def getKeys (values : GoMap) : List String :=
  values.map Prod.fst

/-- Well-formed map of this program: distinct keys, every value `true`. -/
def GoMap.WF (m : GoMap) : Prop :=
  (getKeys m).Nodup ∧ ∀ p ∈ m, p.2 = true

/-! ## Constants -/

/-- `const dir`. -/
def dir : String := ".spacchetti"

/-- `const config`. -/
def config : String := dir ++ "/spacchetti.json"

/-! ## Config access -/

/-- `jqConfig`: run the query; a failing process panics. -/
def jqConfig (jq : String → Option String) (expression : String) : Run String :=
  match jq expression with
  | some output => Run.ok output
  | none => Run.panicked

/-- The query expression that `getProperty` builds. -/
def propertyExpr (dep : String) (property : String) : String :=
  ".packages.\"" ++ dep ++ "\".\"" ++ property ++ "\""

/-- `getProperty`: the trimmed output of the property query. -/
def getProperty (jq : String → Option String) (dep : String) (property : String) : Run String :=
  match jqConfig jq (propertyExpr dep property) with
  | Run.ok result => Run.ok (strings.TrimSpace result)
  | Run.panicked => Run.panicked
  | Run.outOfFuel => Run.outOfFuel

/-- The query expression that `getTransitiveDepsOf` builds for `dep`. -/
def depsExpr (dep : String) : String :=
  ".packages.\"" ++ dep ++ "\".dependencies[]"

/-! ## Dependency resolution -/

/-- The loop `for _, x := range xs { body(x, visited) }` over a shared map. -/
def forEach (body : String → GoMap → Run GoMap) : List String → GoMap → Run GoMap
  | [], visited => Run.ok visited
  | x :: xs, visited =>
    match body x visited with
    | Run.ok visited' => forEach body xs visited'
    | Run.panicked => Run.panicked
    | Run.outOfFuel => Run.outOfFuel

/-- `getTransitiveDepsOf`, with a bound `fuel` on the recursion depth. -/
def getTransitiveDepsOf (jq : String → Option String) : Nat → String → GoMap → Run GoMap
  | 0, _, _ => Run.outOfFuel
  | fuel + 1, dep, visited =>
    if GoMap.index visited dep = true then Run.ok visited
    else
      let visited1 := GoMap.store visited dep true
      match jqConfig jq (depsExpr dep) with
      | Run.ok output =>
        forEach (fun x v => getTransitiveDepsOf jq fuel x v) (strings.Fields output) visited1
      | Run.panicked => Run.panicked
      | Run.outOfFuel => Run.outOfFuel

/-- `getDeps`: resolve from the roots `.dependencies[]` over a fresh map. -/
def getDeps (jq : String → Option String) (fuel : Nat) : Run (List String) :=
  match jqConfig jq ".dependencies[]" with
  | Run.ok output =>
    match forEach (fun dep v => getTransitiveDepsOf jq fuel dep v) (strings.Fields output) [] with
    | Run.ok visited => Run.ok (getKeys visited)
    | Run.panicked => Run.panicked
    | Run.outOfFuel => Run.outOfFuel
  | Run.panicked => Run.panicked
  | Run.outOfFuel => Run.outOfFuel

/-- `getTargetDir`: `fmt.Sprintf("%s/%s/%s", dir, dep, version)`. -/
def getTargetDir (dep : String) (version : String) : String :=
  dir ++ "/" ++ dep ++ "/" ++ version

/-! ## The registry seen through the queries -/

/-- The dependency list of `n` as the traversal reads it: the fields of the
output of the query for `n`, `none` when the query fails. -/
def depsOf (jq : String → Option String) (n : String) : Option (List String) :=
  (jq (depsExpr n)).map strings.Fields

/-- The roots as `getDeps` reads them. -/
def rootsOf (jq : String → Option String) : Option (List String) :=
  (jq ".dependencies[]").map strings.Fields

/-- The edge `a` depends on `b`. -/
def DependsOn (jq : String → Option String) (a b : String) : Prop :=
  ∃ xs, depsOf jq a = some xs ∧ b ∈ xs

/-- The name `n` is reachable from a root by zero or more edges. -/
def Reachable (jq : String → Option String) (roots : List String) (n : String) : Prop :=
  ∃ r ∈ roots, Relation.ReflTransGen (DependsOn jq) r n

/-- Number of names of `names` that are not marked in `visited`. -/
def unvisited (names : List String) (visited : GoMap) : Nat :=
  (names.dedup.filter (fun n => !GoMap.index visited n)).length

/-- The map `v'` extends `v`: marks are kept, every new mark is a name of `S`
whose dependency list was read and is marked in `v'`. -/
structure Grows (jq : String → Option String) (S : String → Prop) (v v' : GoMap) : Prop where
  mono : ∀ n, GoMap.index v n = true → GoMap.index v' n = true
  sound : ∀ n, GoMap.index v' n = true → GoMap.index v n = true ∨ S n
  closed : ∀ n, GoMap.index v' n = true → GoMap.index v n ≠ true →
    ∃ xs, depsOf jq n = some xs ∧ ∀ x ∈ xs, GoMap.index v' x = true
  wf : GoMap.WF v → GoMap.WF v'
  keys : ∀ n, n ∈ getKeys v → n ∈ getKeys v'

/-! ## A config provider for examples -/

/-- One line per name, as `jq -r` prints a list of strings. -/
def unlines : List String → String
  | [] => ""
  | x :: xs => x ++ "\n" ++ unlines xs

/-- A provider answering the root query and the dependency queries of the
names listed in `reg`; every other query fails. -/
def registryJq (roots : List String) (reg : List (String × List String))
    (e : String) : Option String :=
  if e = ".dependencies[]" then some (unlines roots)
  else (reg.find? (fun p => depsExpr p.1 == e)).map (fun p => unlines p.2)

/-- Scenario: A depends on B and C, B on C, C on nothing; root A. -/
def jqDiamond : String → Option String :=
  registryJq ["A"] [("A", ["B", "C"]), ("B", ["C"]), ("C", [])]

/-- Scenario: X depends on X; root X. -/
def jqSelf : String → Option String :=
  registryJq ["X"] [("X", ["X"])]

/-- Scenario: A depends on B, and B has no registry entry; root A. -/
def jqMissing : String → Option String :=
  registryJq ["A"] [("A", ["B"])]

/-- Scenario: the diamond with a repeated root and a repeated dependency. -/
def jqDup : String → Option String :=
  registryJq ["A", "A", "B"] [("A", ["B", "C", "B"]), ("B", ["C"]), ("C", [])]

/-- A provider that also answers the `repo` and `version` queries of the
names listed in `recs` (name, repo, version); a property query for any other
name prints `null`, as `jq` does for an absent path. -/
def recordJq (roots : List String) (reg : List (String × List String))
    (recs : List (String × String × String)) (e : String) : Option String :=
  match registryJq roots reg e with
  | some out => some out
  | none =>
    match recs.find? (fun p => propertyExpr p.1 "repo" == e) with
    | some p => some (p.2.1 ++ "\n")
    | none =>
      match recs.find? (fun p => propertyExpr p.1 "version" == e) with
      | some p => some (p.2.2 ++ "\n")
      | none => some "null\n"

/-! ## Processes and the file system -/

/-- The operating system as the program uses it, over a state `σ`. -/
structure Sys (σ : Type) where
  /-- `os.Stat(path)` returns no error. -/
  stat : σ → String → Bool
  /-- `exec.Command(argv...).Run()`: whether it succeeded, and the new state. -/
  run : List String → σ → Bool × σ
  /-- `exec.Command(argv...).CombinedOutput()` of a process that only reads:
  the output, `none` when the process fails. -/
  output : List String → σ → Option String

/-- What the process has done so far. -/
structure Proc (σ : Type) where
  /-- State of the file system. -/
  world : σ
  /-- Commands started with `Run()`, oldest first. -/
  cmds : List (List String)
  /-- Lines printed, oldest first. -/
  stdout : List String
  deriving DecidableEq

/-- The `jq` process of `jqConfig` on the current state. -/
def Sys.jq {σ : Type} (sys : Sys σ) (w : σ) (expression : String) : Option String :=
  sys.output ["jq", expression, "-r", config] w

/-- Start a command with `Run()`; the result is `true` when `err == nil`. -/
def execRun {σ : Type} (sys : Sys σ) (argv : List String) (st : Proc σ) : Bool × Proc σ :=
  ((sys.run argv st.world).1,
   { world := (sys.run argv st.world).2, cmds := st.cmds ++ [argv], stdout := st.stdout })

/-- Print one line. -/
def println {σ : Type} (st : Proc σ) (line : String) : Proc σ :=
  { world := st.world, cmds := st.cmds, stdout := st.stdout ++ [line] }

/-- `ensureSpacchettiConfig`. -/
def ensureSpacchettiConfig {σ : Type} (sys : Sys σ) (st : Proc σ) : Proc σ × Run Unit :=
  if sys.stat st.world config then (st, Run.ok ())
  else
    let r := execRun sys ["bash", "-c", "dhall-to-json <<< ./spacchetti.dhall > " ++ config] st
    if r.1 then (r.2, Run.ok ()) else (r.2, Run.panicked)

/-- The `git clone` command line of `installDep`. -/
def cloneCmd (repo version targetDir : String) : List String :=
  ["git", "clone", "-c", "advice.detachedHead=false", "--branch", version, repo, targetDir]

/-- `installDep`. -/
def installDep {σ : Type} (sys : Sys σ) (dep : String) (st : Proc σ) : Proc σ × Run Unit :=
  match getProperty (sys.jq st.world) dep "repo" with
  | Run.ok repo =>
    match getProperty (sys.jq st.world) dep "version" with
    | Run.ok version =>
      let targetDir := getTargetDir dep version
      if sys.stat st.world targetDir then (st, Run.ok ())
      else
        let r := execRun sys (cloneCmd repo version targetDir)
          (println st ("installing " ++ targetDir))
        if r.1 then (r.2, Run.ok ()) else (r.2, Run.panicked)
    | Run.panicked => (st, Run.panicked)
    | Run.outOfFuel => (st, Run.outOfFuel)
  | Run.panicked => (st, Run.panicked)
  | Run.outOfFuel => (st, Run.outOfFuel)

/-- The glob of one resolved name, from its target path. -/
def sourceGlob (dep : String) (version : String) : String :=
  getTargetDir dep version ++ "/src/**/*.purs"

/-- The loop of `getSources` over `deps`, filling the map `globs`. -/
def collectGlobs (jq : String → Option String) : List String → GoMap → Run GoMap
  | [], globs => Run.ok globs
  | dep :: deps, globs =>
    match getProperty jq dep "version" with
    | Run.ok version => collectGlobs jq deps (GoMap.store globs (sourceGlob dep version) true)
    | Run.panicked => Run.panicked
    | Run.outOfFuel => Run.outOfFuel

/-- `getSources`. -/
def getSources {σ : Type} (sys : Sys σ) (fuel : Nat) (st : Proc σ) :
    Proc σ × Run (List String) :=
  match ensureSpacchettiConfig sys st with
  | (st1, Run.ok _) =>
    match getDeps (sys.jq st1.world) fuel with
    | Run.ok deps =>
      match collectGlobs (sys.jq st1.world) deps [] with
      | Run.ok globs => (st1, Run.ok (getKeys globs))
      | Run.panicked => (st1, Run.panicked)
      | Run.outOfFuel => (st1, Run.outOfFuel)
    | Run.panicked => (st1, Run.panicked)
    | Run.outOfFuel => (st1, Run.outOfFuel)
  | (st1, Run.panicked) => (st1, Run.panicked)
  | (st1, Run.outOfFuel) => (st1, Run.outOfFuel)

/-! ## The install loop of `main` -/

/-- The install loop as its goroutines see it. -/
structure Install (σ : Type) where
  /-- State of the process. -/
  proc : Proc σ
  /-- Counter of the `sync.WaitGroup`. -/
  wg : Nat
  /-- Arguments of the calls of `installDep` made so far, oldest first. -/
  calls : List String
  deriving DecidableEq

/-- One goroutine of the loop, `defer wg.Done(); installDep(dep)`: the call is
made, and the deferred `wg.Done()` runs whether the call returns or panics. -/
def goroutine {σ : Type} (sys : Sys σ) (dep : String) (s : Install σ) : Install σ × Run Unit :=
  ({ proc := (installDep sys dep s.proc).1, wg := s.wg - 1, calls := s.calls ++ [dep] },
   (installDep sys dep s.proc).2)

/-- The goroutines whose `installDep` calls the scheduler runs in the order
`order`, each call taken as one step.  A panic that nothing recovers ends the
program: the goroutines that come later in `order` make no call. -/
def runGoroutines {σ : Type} (sys : Sys σ) : List String → Install σ → Install σ × Run Unit
  | [], s => (s, Run.ok ())
  | dep :: rest, s =>
    match goroutine sys dep s with
    | (s1, Run.ok _) => runGoroutines sys rest s1
    | (s1, Run.panicked) => (s1, Run.panicked)
    | (s1, Run.outOfFuel) => (s1, Run.outOfFuel)

/-- The loop of the `-install` branch of `main`: `wg.Add(len(deps))`, then one
goroutine per element of `deps`.  Go leaves the order in which the goroutines
run to the scheduler; `order` is that order, a permutation of `deps`.  What
`main` does once `wg.Wait()` lets it go on is not part of this definition. -/
def installLoop {σ : Type} (sys : Sys σ) (deps order : List String) (st : Proc σ) :
    Install σ × Run Unit :=
  runGoroutines sys order { proc := st, wg := deps.length, calls := [] }

/-! ## A file system for examples -/

/-- A system whose state is the list of existing paths: `git clone` creates
its destination unless the repo is listed in `broken`, every other command
fails, and `jq` answers from `answers`. -/
def diskSys (answers : String → Option String) (broken : List String) : Sys (List String) where
  stat := fun w path => decide (path ∈ w)
  run := fun argv w =>
    match argv with
    | ["git", "clone", "-c", _, "--branch", _, repo, targetDir] =>
      if repo ∈ broken then (false, w) else (true, targetDir :: w)
    | _ => (false, w)
  output := fun argv _ =>
    match argv with
    | ["jq", expression, "-r", _] => answers expression
    | _ => none

/-- The diamond scenario with a repo and a version for each name. -/
def jqDiamondFull : String → Option String :=
  recordJq ["A"] [("A", ["B", "C"]), ("B", ["C"]), ("C", [])]
    [("A", "https://h/a.git", "v1.0.0"), ("B", "https://h/b.git", "v2.0.0"),
     ("C", "https://h/c.git", "v0.3.0")]

/-- A provider like `recordJq` that fails on every query it has no answer
for. -/
def strictJq (roots : List String) (reg : List (String × List String))
    (recs : List (String × String × String)) (e : String) : Option String :=
  match registryJq roots reg e with
  | some out => some out
  | none =>
    match recs.find? (fun p => propertyExpr p.1 "repo" == e) with
    | some p => some (p.2.1 ++ "\n")
    | none =>
      match recs.find? (fun p => propertyExpr p.1 "version" == e) with
      | some p => some (p.2.2 ++ "\n")
      | none => none

/-- The scenario of `jqDup` with a repo and a version for each name. -/
def jqDupFull : String → Option String :=
  strictJq ["A", "A", "B"] [("A", ["B", "C", "B"]), ("B", ["C"]), ("C", [])]
    [("A", "https://h/a.git", "v1.0.0"), ("B", "https://h/b.git", "v2.0.0"),
     ("C", "https://h/c.git", "v0.3.0")]

/-- The versions of the diamond scenario. -/
def versionDiamond (n : String) : String :=
  if n = "A" then "v1.0.0" else if n = "B" then "v2.0.0" else "v0.3.0"

/-- A process that has done nothing yet, on the state `w`. -/
def freshProc (w : List String) : Proc (List String) :=
  { world := w, cmds := [], stdout := [] }

/-! ## Lemmas on Go maps -/

theorem index_store (m : GoMap) (k : String) (b : Bool) (k' : String) :
    GoMap.index (GoMap.store m k b) k' = if k = k' then b else GoMap.index m k' := by
  induction m with
  | nil => simp [GoMap.store, GoMap.index]
  | cons p m ih =>
    obtain ⟨k0, b0⟩ := p
    by_cases h : k0 = k
    · subst h
      by_cases h' : k0 = k' <;> simp [GoMap.store, GoMap.index, h']
    · by_cases h' : k = k'
      · subst h'
        simp [GoMap.store, GoMap.index, h, ih]
      · simp [GoMap.store, GoMap.index, h, ih, h']

theorem index_store_self (m : GoMap) (k : String) (b : Bool) :
    GoMap.index (GoMap.store m k b) k = b := by
  simp [index_store]

theorem index_store_of_ne (m : GoMap) (k : String) (b : Bool) (k' : String) (h : k ≠ k') :
    GoMap.index (GoMap.store m k b) k' = GoMap.index m k' := by
  simp [index_store, h]

theorem getKeys_store (m : GoMap) (k : String) (b : Bool) :
    getKeys (GoMap.store m k b) = if k ∈ getKeys m then getKeys m else getKeys m ++ [k] := by
  induction m with
  | nil => simp [GoMap.store, getKeys]
  | cons p m ih =>
    obtain ⟨k0, b0⟩ := p
    by_cases h : k0 = k
    · subst h
      simp [GoMap.store, getKeys]
    · have h' : ¬ k = k0 := fun e => h e.symm
      simp only [getKeys] at ih
      by_cases hm : k ∈ List.map Prod.fst m
      · simp [GoMap.store, getKeys, h, h', ih, hm]
      · simp [GoMap.store, getKeys, h, h', ih, hm]

theorem mem_getKeys_store (m : GoMap) (k : String) (b : Bool) (n : String) :
    n ∈ getKeys (GoMap.store m k b) ↔ n ∈ getKeys m ∨ n = k := by
  rw [getKeys_store]
  by_cases h : k ∈ getKeys m
  · simp only [h, if_true]
    constructor
    · exact Or.inl
    · rintro (h1 | h1)
      · exact h1
      · exact h1 ▸ h
  · simp [h]

theorem allTrue_store (m : GoMap) (k : String) (h : ∀ p ∈ m, p.2 = true) :
    ∀ p ∈ GoMap.store m k true, p.2 = true := by
  induction m with
  | nil => simp [GoMap.store]
  | cons p m ih =>
    obtain ⟨k0, b0⟩ := p
    have h0 : b0 = true := h (k0, b0) (List.mem_cons_self _ _)
    have ht : ∀ p ∈ m, p.2 = true := fun p hp => h p (List.mem_cons_of_mem _ hp)
    intro q hq
    by_cases hk : k0 = k
    · simp only [GoMap.store, hk, if_true, List.mem_cons] at hq
      rcases hq with rfl | hq
      · rfl
      · exact ht q hq
    · simp only [GoMap.store, hk, if_false, List.mem_cons] at hq
      rcases hq with rfl | hq
      · exact h0
      · exact ih ht q hq

theorem wf_nil : GoMap.WF [] := by
  simp [GoMap.WF, getKeys]

theorem wf_store (m : GoMap) (k : String) (h : GoMap.WF m) : GoMap.WF (GoMap.store m k true) := by
  refine ⟨?_, allTrue_store m k h.2⟩
  rw [getKeys_store]
  by_cases hk : k ∈ getKeys m
  · simpa [hk] using h.1
  · simp only [hk, if_false]
    exact List.Nodup.append h.1 (List.nodup_singleton k) (by simpa using hk)

theorem index_eq_true_of_allTrue (m : GoMap) (h : ∀ p ∈ m, p.2 = true) (n : String) :
    GoMap.index m n = true ↔ n ∈ getKeys m := by
  induction m with
  | nil => simp [GoMap.index, getKeys]
  | cons p m ih =>
    obtain ⟨k0, b0⟩ := p
    have h0 : b0 = true := h (k0, b0) (List.mem_cons_self _ _)
    have ht : ∀ p ∈ m, p.2 = true := fun p hp => h p (List.mem_cons_of_mem _ hp)
    have ih' := ih ht
    simp only [getKeys] at ih'
    by_cases hk : k0 = n
    · simp [GoMap.index, getKeys, hk, h0]
    · have hk' : ¬ n = k0 := fun e => hk e.symm
      simp [GoMap.index, getKeys, hk, hk', ih']

theorem index_true_mem_getKeys (m : GoMap) (n : String) (h : GoMap.index m n = true) :
    n ∈ getKeys m := by
  induction m with
  | nil => simp [GoMap.index] at h
  | cons p m ih =>
    obtain ⟨k0, b0⟩ := p
    by_cases hk : k0 = n
    · simp [getKeys, hk]
    · simp only [GoMap.index, hk, if_false] at h
      have := ih h
      simp only [getKeys] at this
      simp [getKeys, this]

/-! ## Partial correctness of the traversal -/

theorem Grows.refl (jq : String → Option String) (S : String → Prop) (v : GoMap) :
    Grows jq S v v :=
  ⟨fun _ h => h, fun _ h => Or.inl h, fun _ h h' => absurd h h', fun h => h, fun _ h => h⟩

theorem Grows.trans {jq : String → Option String} {S : String → Prop} {v v1 v2 : GoMap}
    (h1 : Grows jq S v v1) (h2 : Grows jq S v1 v2) : Grows jq S v v2 := by
  refine ⟨fun n h => h2.mono n (h1.mono n h), ?_, ?_, fun h => h2.wf (h1.wf h),
    fun n h => h2.keys n (h1.keys n h)⟩
  · intro n h
    rcases h2.sound n h with h | h
    · exact h1.sound n h
    · exact Or.inr h
  · intro n h hn
    by_cases h' : GoMap.index v1 n = true
    · obtain ⟨xs, hxs, hall⟩ := h1.closed n h' hn
      exact ⟨xs, hxs, fun x hx => h2.mono x (hall x hx)⟩
    · exact h2.closed n h h'

theorem Grows.weaken {jq : String → Option String} {S T : String → Prop} {v v' : GoMap}
    (h : Grows jq S v v') (hST : ∀ n, S n → T n) : Grows jq T v v' :=
  ⟨h.mono, fun n hn => (h.sound n hn).imp id (hST n), h.closed, h.wf, h.keys⟩

theorem jqConfig_eq_ok {jq : String → Option String} {e out : String}
    (h : jqConfig jq e = Run.ok out) : jq e = some out := by
  unfold jqConfig at h
  cases hq : jq e with
  | none => simp [hq] at h
  | some o => simp [hq] at h; simp [h]

theorem jqConfig_of_some {jq : String → Option String} {e out : String}
    (h : jq e = some out) : jqConfig jq e = Run.ok out := by
  simp [jqConfig, h]

theorem jqConfig_of_none {jq : String → Option String} {e : String}
    (h : jq e = none) : jqConfig jq e = Run.panicked := by
  simp [jqConfig, h]

theorem jqConfig_ne_outOfFuel (jq : String → Option String) (e : String) :
    jqConfig jq e ≠ Run.outOfFuel := by
  unfold jqConfig
  cases jq e <;> simp

theorem forEach_grows (jq : String → Option String) (body : String → GoMap → Run GoMap)
    (hbody : ∀ x v v', body x v = Run.ok v' →
      Grows jq (Relation.ReflTransGen (DependsOn jq) x) v v' ∧ GoMap.index v' x = true) :
    ∀ (xs : List String) (v v' : GoMap), forEach body xs v = Run.ok v' →
      Grows jq (fun n => ∃ x ∈ xs, Relation.ReflTransGen (DependsOn jq) x n) v v' ∧
      ∀ x ∈ xs, GoMap.index v' x = true := by
  intro xs
  induction xs with
  | nil =>
    intro v v' h
    simp only [forEach, Run.ok.injEq] at h
    subst h
    exact ⟨Grows.refl _ _ _, by simp⟩
  | cons x xs ih =>
    intro v v' h
    simp only [forEach] at h
    cases hb : body x v with
    | ok v1 =>
      rw [hb] at h
      obtain ⟨g1, hx⟩ := hbody x v v1 hb
      obtain ⟨g2, hxs⟩ := ih v1 v' h
      refine ⟨Grows.trans (g1.weaken ?_) (g2.weaken ?_), ?_⟩
      · intro n hn
        exact ⟨x, List.mem_cons_self _ _, hn⟩
      · rintro n ⟨y, hy, hn⟩
        exact ⟨y, List.mem_cons_of_mem _ hy, hn⟩
      · intro y hy
        rcases List.mem_cons.mp hy with rfl | hy
        · exact g2.mono _ hx
        · exact hxs y hy
    | panicked => rw [hb] at h; simp at h
    | outOfFuel => rw [hb] at h; simp at h

theorem grows_store (v : GoMap) (dep : String) :
    (∀ n, GoMap.index v n = true → GoMap.index (GoMap.store v dep true) n = true) ∧
    (GoMap.WF v → GoMap.WF (GoMap.store v dep true)) ∧
    (∀ n, n ∈ getKeys v → n ∈ getKeys (GoMap.store v dep true)) := by
  refine ⟨?_, wf_store v dep, fun n h => (mem_getKeys_store v dep true n).mpr (Or.inl h)⟩
  intro n h
  rw [index_store]
  split
  · rfl
  · exact h

theorem getTransitiveDepsOf_grows (jq : String → Option String) :
    ∀ (fuel : Nat) (dep : String) (v v' : GoMap),
      getTransitiveDepsOf jq fuel dep v = Run.ok v' →
      Grows jq (Relation.ReflTransGen (DependsOn jq) dep) v v' ∧ GoMap.index v' dep = true := by
  intro fuel
  induction fuel with
  | zero =>
    intro dep v v' h
    simp [getTransitiveDepsOf] at h
  | succ fuel ih =>
    intro dep v v' h
    simp only [getTransitiveDepsOf] at h
    by_cases hv : GoMap.index v dep = true
    · simp only [hv, if_true, Run.ok.injEq] at h
      subst h
      exact ⟨Grows.refl _ _ _, hv⟩
    · simp only [hv] at h
      cases hq : jqConfig jq (depsExpr dep) with
      | ok output =>
        rw [hq] at h
        simp only [Bool.false_eq_true, if_false] at h
        have hdeps : depsOf jq dep = some (strings.Fields output) := by
          simp [depsOf, jqConfig_eq_ok hq]
        obtain ⟨g, hxs⟩ := forEach_grows jq _ (fun x v v' hb => ih x v v' hb) _ _ _ h
        obtain ⟨smono, swf, skeys⟩ := grows_store v dep
        have hdep' : GoMap.index v' dep = true := g.mono dep (index_store_self v dep true)
        refine ⟨⟨fun n hn => g.mono n (smono n hn), ?_, ?_, fun w => g.wf (swf w),
          fun n hn => g.keys n (skeys n hn)⟩, hdep'⟩
        · intro n hn
          rcases g.sound n hn with h1 | ⟨x, hx, hr⟩
          · rw [index_store] at h1
            by_cases hd : dep = n
            · exact Or.inr (hd ▸ Relation.ReflTransGen.refl)
            · simp only [hd, if_false] at h1
              exact Or.inl h1
          · exact Or.inr (Relation.ReflTransGen.head ⟨_, hdeps, hx⟩ hr)
        · intro n hn hnv
          by_cases hd : dep = n
          · subst hd
            exact ⟨_, hdeps, hxs⟩
          · apply g.closed n hn
            rw [index_store_of_ne v dep true n hd]
            exact hnv
      | panicked => rw [hq] at h; simp at h
      | outOfFuel => rw [hq] at h; simp at h

/-! ## Termination -/

theorem unvisited_le_length (names : List String) (v : GoMap) :
    unvisited names v ≤ names.length :=
  le_trans (List.length_filter_le _ _) (List.dedup_sublist names).length_le

theorem unvisited_sublist (names : List String) (v v' : GoMap)
    (h : ∀ n, GoMap.index v n = true → GoMap.index v' n = true) :
    List.Sublist (names.dedup.filter (fun n => !GoMap.index v' n))
      (names.dedup.filter (fun n => !GoMap.index v n)) := by
  apply List.monotone_filter_right
  intro n hn
  cases hv : GoMap.index v n with
  | false => rfl
  | true => simp [h n hv] at hn

theorem unvisited_mono (names : List String) (v v' : GoMap)
    (h : ∀ n, GoMap.index v n = true → GoMap.index v' n = true) :
    unvisited names v' ≤ unvisited names v :=
  (unvisited_sublist names v v' h).length_le

theorem unvisited_store_lt (names : List String) (v : GoMap) (dep : String)
    (hv : GoMap.index v dep ≠ true) (hdep : dep ∈ names) :
    unvisited names (GoMap.store v dep true) < unvisited names v := by
  have hsub := unvisited_sublist names v (GoMap.store v dep true)
    (fun n hn => by rw [index_store]; split <;> simp [hn])
  rcases Nat.lt_or_ge (unvisited names (GoMap.store v dep true)) (unvisited names v) with h | h
  · exact h
  · exfalso
    have heq := hsub.eq_of_length_le h
    have hmem : dep ∈ names.dedup.filter (fun n => !GoMap.index v n) := by
      rw [List.mem_filter]
      refine ⟨List.mem_dedup.mpr hdep, ?_⟩
      cases hh : GoMap.index v dep with
      | false => rfl
      | true => exact absurd hh hv
    rw [← heq, List.mem_filter] at hmem
    simp [index_store_self] at hmem

theorem forEach_ne_outOfFuel (body : String → GoMap → Run GoMap) (P : GoMap → Prop)
    (hbody : ∀ x v, P v → body x v ≠ Run.outOfFuel ∧ ∀ v', body x v = Run.ok v' → P v') :
    ∀ (xs : List String) (v : GoMap), P v → forEach body xs v ≠ Run.outOfFuel := by
  intro xs
  induction xs with
  | nil => intro v _; simp [forEach]
  | cons x xs ih =>
    intro v hv
    simp only [forEach]
    cases hb : body x v with
    | ok v1 => exact ih v1 ((hbody x v hv).2 v1 hb)
    | panicked => simp
    | outOfFuel => exact absurd hb (hbody x v hv).1

theorem getTransitiveDepsOf_ne_outOfFuel (jq : String → Option String) (names : List String)
    (hfin : ∀ n, n ∉ names → depsOf jq n = none) :
    ∀ (fuel : Nat) (dep : String) (v : GoMap), unvisited names v < fuel →
      getTransitiveDepsOf jq fuel dep v ≠ Run.outOfFuel := by
  intro fuel
  induction fuel with
  | zero => intro dep v h; exact absurd h (Nat.not_lt_zero _)
  | succ fuel ih =>
    intro dep v hlt
    simp only [getTransitiveDepsOf]
    by_cases hv : GoMap.index v dep = true
    · simp [hv]
    · simp only [hv, if_false]
      cases hq : jqConfig jq (depsExpr dep) with
      | ok output =>
        have hdep : dep ∈ names := by
          by_contra hn
          have := hfin dep hn
          simp [depsOf, jqConfig_eq_ok hq] at this
        have hlt' : unvisited names (GoMap.store v dep true) < fuel :=
          lt_of_lt_of_le (unvisited_store_lt names v dep hv hdep) (Nat.lt_succ_iff.mp hlt)
        refine forEach_ne_outOfFuel _ (fun w => unvisited names w < fuel) ?_ _ _ hlt'
        intro x w hw
        refine ⟨ih x w hw, fun w' hw' => ?_⟩
        exact lt_of_le_of_lt
          (unvisited_mono names w w' (getTransitiveDepsOf_grows jq fuel x w w' hw').1.mono) hw
      | panicked => simp
      | outOfFuel => exact absurd hq (jqConfig_ne_outOfFuel jq _)

/-! ## The result does not depend on the fuel -/

theorem forEach_congr (body body' : String → GoMap → Run GoMap)
    (h : ∀ x v, body x v ≠ Run.outOfFuel → body' x v = body x v) :
    ∀ (xs : List String) (v : GoMap), forEach body xs v ≠ Run.outOfFuel →
      forEach body' xs v = forEach body xs v := by
  intro xs
  induction xs with
  | nil => intro v _; simp [forEach]
  | cons x xs ih =>
    intro v hne
    simp only [forEach] at hne ⊢
    cases hb : body x v with
    | ok v1 =>
      rw [hb] at hne
      rw [h x v (by rw [hb]; simp), hb]
      exact ih v1 hne
    | panicked =>
      rw [h x v (by rw [hb]; simp), hb]
    | outOfFuel => rw [hb] at hne; exact absurd rfl hne

theorem getTransitiveDepsOf_fuel_succ (jq : String → Option String) :
    ∀ (fuel : Nat) (dep : String) (v : GoMap),
      getTransitiveDepsOf jq fuel dep v ≠ Run.outOfFuel →
      getTransitiveDepsOf jq (fuel + 1) dep v = getTransitiveDepsOf jq fuel dep v := by
  intro fuel
  induction fuel with
  | zero => intro dep v h; simp [getTransitiveDepsOf] at h
  | succ fuel ih =>
    intro dep v hne
    rw [getTransitiveDepsOf.eq_def jq (fuel + 1 + 1), getTransitiveDepsOf.eq_def jq (fuel + 1)]
    rw [getTransitiveDepsOf.eq_def jq (fuel + 1)] at hne
    simp only at hne ⊢
    by_cases hv : GoMap.index v dep = true
    · simp [hv]
    · simp only [hv, if_false] at hne ⊢
      cases hq : jqConfig jq (depsExpr dep) with
      | ok output =>
        rw [hq] at hne
        simp only at hne ⊢
        exact forEach_congr _ _ (fun x w hw => ih x w hw) _ _ hne
      | panicked => rfl
      | outOfFuel => rfl

theorem getTransitiveDepsOf_fuel_le (jq : String → Option String) (fuel fuel' : Nat)
    (hle : fuel ≤ fuel') (dep : String) (v : GoMap)
    (hne : getTransitiveDepsOf jq fuel dep v ≠ Run.outOfFuel) :
    getTransitiveDepsOf jq fuel' dep v = getTransitiveDepsOf jq fuel dep v := by
  induction hle with
  | refl => rfl
  | step _ ih =>
    rw [getTransitiveDepsOf_fuel_succ jq _ dep v (by rw [ih]; exact hne), ih]

/-! ## Where a panic comes from -/

theorem forEach_panicked (body : String → GoMap → Run GoMap) :
    ∀ (xs : List String) (v : GoMap), forEach body xs v = Run.panicked →
      ∃ x ∈ xs, ∃ w, body x w = Run.panicked := by
  intro xs
  induction xs with
  | nil => intro v h; simp [forEach] at h
  | cons x xs ih =>
    intro v h
    simp only [forEach] at h
    cases hb : body x v with
    | ok v1 =>
      rw [hb] at h
      obtain ⟨y, hy, w, hw⟩ := ih v1 h
      exact ⟨y, List.mem_cons_of_mem _ hy, w, hw⟩
    | panicked => exact ⟨x, List.mem_cons_self _ _, v, hb⟩
    | outOfFuel => rw [hb] at h; simp at h

theorem getTransitiveDepsOf_panicked (jq : String → Option String) :
    ∀ (fuel : Nat) (dep : String) (v : GoMap),
      getTransitiveDepsOf jq fuel dep v = Run.panicked →
      ∃ n, Relation.ReflTransGen (DependsOn jq) dep n ∧ depsOf jq n = none := by
  intro fuel
  induction fuel with
  | zero => intro dep v h; simp [getTransitiveDepsOf] at h
  | succ fuel ih =>
    intro dep v h
    simp only [getTransitiveDepsOf] at h
    by_cases hv : GoMap.index v dep = true
    · simp [hv] at h
    · simp only [hv, if_false] at h
      cases hq : jqConfig jq (depsExpr dep) with
      | ok output =>
        rw [hq] at h
        simp only at h
        have hdeps : depsOf jq dep = some (strings.Fields output) := by
          simp [depsOf, jqConfig_eq_ok hq]
        obtain ⟨x, hx, w, hw⟩ := forEach_panicked _ _ _ h
        obtain ⟨n, hn, hnone⟩ := ih x w hw
        exact ⟨n, Relation.ReflTransGen.head ⟨_, hdeps, hx⟩ hn, hnone⟩
      | panicked =>
        refine ⟨dep, Relation.ReflTransGen.refl, ?_⟩
        unfold jqConfig at hq
        cases hj : jq (depsExpr dep) with
        | none => simp [depsOf, hj]
        | some o => simp [hj] at hq
      | outOfFuel => exact absurd hq (jqConfig_ne_outOfFuel jq _)

/-! ## getDeps -/

theorem rootsOf_some {jq : String → Option String} {roots : List String}
    (h : rootsOf jq = some roots) :
    ∃ out, jq ".dependencies[]" = some out ∧ strings.Fields out = roots := by
  unfold rootsOf at h
  cases hj : jq ".dependencies[]" with
  | none => simp [hj] at h
  | some o => exact ⟨o, rfl, by simpa [hj] using h⟩

theorem getDeps_of_roots {jq : String → Option String} {roots : List String}
    (h : rootsOf jq = some roots) (fuel : Nat) :
    getDeps jq fuel =
      match forEach (fun dep v => getTransitiveDepsOf jq fuel dep v) roots [] with
      | Run.ok visited => Run.ok (getKeys visited)
      | Run.panicked => Run.panicked
      | Run.outOfFuel => Run.outOfFuel := by
  obtain ⟨out, hout, hf⟩ := rootsOf_some h
  simp only [getDeps, jqConfig_of_some hout, hf]

theorem getDeps_of_no_roots {jq : String → Option String} (h : rootsOf jq = none) (fuel : Nat) :
    getDeps jq fuel = Run.panicked := by
  unfold rootsOf at h
  cases hj : jq ".dependencies[]" with
  | none => simp only [getDeps, jqConfig_of_none hj]
  | some o => simp [hj] at h

theorem forEach_roots_ne_outOfFuel (jq : String → Option String) (names : List String)
    (hfin : ∀ n, n ∉ names → depsOf jq n = none) (fuel : Nat) (hfuel : names.length < fuel)
    (roots : List String) (v : GoMap) :
    forEach (fun dep w => getTransitiveDepsOf jq fuel dep w) roots v ≠ Run.outOfFuel := by
  refine forEach_ne_outOfFuel _ (fun w => unvisited names w < fuel) ?_ roots v
    (lt_of_le_of_lt (unvisited_le_length names v) hfuel)
  intro x w hw
  refine ⟨getTransitiveDepsOf_ne_outOfFuel jq names hfin fuel x w hw, fun w' hw' => ?_⟩
  exact lt_of_le_of_lt
    (unvisited_mono names w w' (getTransitiveDepsOf_grows jq fuel x w w' hw').1.mono) hw

theorem getDeps_ne_outOfFuel (jq : String → Option String) (names : List String)
    (hfin : ∀ n, n ∉ names → depsOf jq n = none) (fuel : Nat) (hfuel : names.length < fuel) :
    getDeps jq fuel ≠ Run.outOfFuel := by
  cases hr : rootsOf jq with
  | none => rw [getDeps_of_no_roots hr]; simp
  | some roots =>
    rw [getDeps_of_roots hr]
    have := forEach_roots_ne_outOfFuel jq names hfin fuel hfuel roots []
    cases hf : forEach (fun dep w => getTransitiveDepsOf jq fuel dep w) roots [] with
    | ok v => simp
    | panicked => simp
    | outOfFuel => exact absurd hf this

theorem getDeps_fuel_eq (jq : String → Option String) (names : List String)
    (hfin : ∀ n, n ∉ names → depsOf jq n = none) (fuel : Nat) (hfuel : names.length < fuel) :
    getDeps jq fuel = getDeps jq (names.length + 1) := by
  cases hr : rootsOf jq with
  | none => rw [getDeps_of_no_roots hr, getDeps_of_no_roots hr]
  | some roots =>
    rw [getDeps_of_roots hr, getDeps_of_roots hr]
    have hne := forEach_roots_ne_outOfFuel jq names hfin (names.length + 1)
      (Nat.lt_succ_self _) roots []
    rw [forEach_congr (fun dep w => getTransitiveDepsOf jq (names.length + 1) dep w)
      (fun dep w => getTransitiveDepsOf jq fuel dep w)
      (fun x w hw => getTransitiveDepsOf_fuel_le jq _ _ hfuel x w hw) roots [] hne]

theorem index_nil (n : String) : GoMap.index [] n = false := rfl

theorem getDeps_ok_spec (jq : String → Option String) (fuel : Nat) (roots ks : List String)
    (hroots : rootsOf jq = some roots) (h : getDeps jq fuel = Run.ok ks) :
    ks.Nodup ∧ (∀ n, n ∈ ks ↔ Reachable jq roots n) ∧
      ∀ n, Reachable jq roots n → ∃ xs, depsOf jq n = some xs := by
  rw [getDeps_of_roots hroots] at h
  cases hf : forEach (fun dep w => getTransitiveDepsOf jq fuel dep w) roots [] with
  | panicked => rw [hf] at h; simp at h
  | outOfFuel => rw [hf] at h; simp at h
  | ok v =>
    rw [hf] at h
    simp only [Run.ok.injEq] at h
    subst h
    obtain ⟨g, hr⟩ := forEach_grows jq _
      (fun x w w' hb => getTransitiveDepsOf_grows jq fuel x w w' hb) roots [] v hf
    have hwf : GoMap.WF v := g.wf wf_nil
    have hmem : ∀ n, n ∈ getKeys v ↔ GoMap.index v n = true :=
      fun n => (index_eq_true_of_allTrue v hwf.2 n).symm
    have hclosed : ∀ n, GoMap.index v n = true →
        ∃ xs, depsOf jq n = some xs ∧ ∀ x ∈ xs, GoMap.index v x = true :=
      fun n hn => g.closed n hn (by simp [index_nil])
    have hreach : ∀ n, Reachable jq roots n → GoMap.index v n = true := by
      rintro n ⟨r, hr', hrn⟩
      induction hrn with
      | refl => exact hr r hr'
      | tail _ hstep ih =>
        obtain ⟨xs, hxs, hb⟩ := hstep
        obtain ⟨ys, hys, hall⟩ := hclosed _ ih
        rw [hxs] at hys
        cases hys
        exact hall _ hb
    refine ⟨hwf.1, fun n => ?_, fun n hn => ?_⟩
    · rw [hmem]
      constructor
      · intro hn
        rcases g.sound n hn with h0 | h1
        · simp [index_nil] at h0
        · exact h1
      · exact hreach n
    · obtain ⟨xs, hxs, _⟩ := hclosed n (hreach n hn)
      exact ⟨xs, hxs⟩

theorem getDeps_panicked_spec (jq : String → Option String) (fuel : Nat) (roots : List String)
    (hroots : rootsOf jq = some roots) (h : getDeps jq fuel = Run.panicked) :
    ∃ n, Reachable jq roots n ∧ depsOf jq n = none := by
  rw [getDeps_of_roots hroots] at h
  cases hf : forEach (fun dep w => getTransitiveDepsOf jq fuel dep w) roots [] with
  | ok v => rw [hf] at h; simp at h
  | outOfFuel => rw [hf] at h; simp at h
  | panicked =>
    obtain ⟨x, hx, w, hw⟩ := forEach_panicked _ _ _ hf
    obtain ⟨n, hn, hnone⟩ := getTransitiveDepsOf_panicked jq fuel x w hw
    exact ⟨n, ⟨x, hx, hn⟩, hnone⟩

/-! ## The example providers -/

theorem depsExpr_injective {a b : String} (h : depsExpr a = depsExpr b) : a = b := by
  have h' := congrArg String.data h
  simp only [depsExpr, String.data_append] at h'
  have h1 := List.append_cancel_right h'
  have h2 := List.append_cancel_left h1
  exact String.ext h2

theorem depsExpr_ne_roots (n : String) : depsExpr n ≠ ".dependencies[]" := by
  intro h
  have h' := congrArg String.data h
  simp only [depsExpr, String.data_append] at h'
  have h2 := congrArg (fun l => l.get? 1) h'
  simp at h2

theorem depsOf_registryJq_none (roots : List String) (reg : List (String × List String))
    (n : String) (h : n ∉ reg.map Prod.fst) : depsOf (registryJq roots reg) n = none := by
  unfold depsOf registryJq
  rw [if_neg (depsExpr_ne_roots n)]
  cases hf : reg.find? (fun p => depsExpr p.1 == depsExpr n) with
  | none => rfl
  | some p =>
    exfalso
    apply h
    have hp := List.find?_some hf
    have hmem := List.mem_of_find?_eq_some hf
    have : p.1 = n := depsExpr_injective (by simpa using hp)
    exact List.mem_map.mpr ⟨p, hmem, this⟩

theorem reachable_mem_of_closed (jq : String → Option String) (roots names : List String)
    (hroots : ∀ r ∈ roots, r ∈ names)
    (hclosed : ∀ n ∈ names, ∀ x ∈ (depsOf jq n).getD [], x ∈ names) :
    ∀ n, Reachable jq roots n → n ∈ names := by
  rintro n ⟨r, hr, hrn⟩
  induction hrn with
  | refl => exact hroots r hr
  | tail _ hstep ih =>
    obtain ⟨xs, hxs, hb⟩ := hstep
    exact hclosed _ ih _ (by simpa [hxs] using hb)

theorem reachable_entry_of_closed (jq : String → Option String) (roots names : List String)
    (hroots : ∀ r ∈ roots, r ∈ names)
    (hclosed : ∀ n ∈ names, ∀ x ∈ (depsOf jq n).getD [], x ∈ names)
    (hentry : ∀ n ∈ names, depsOf jq n ≠ none) :
    ∀ n, Reachable jq roots n → depsOf jq n ≠ none :=
  fun n hn => hentry n (reachable_mem_of_closed jq roots names hroots hclosed n hn)

theorem depsExpr_ne_propertyExpr (n m property : String) :
    propertyExpr m property ≠ depsExpr n := by
  intro h
  have h' := congrArg (fun t => t.data.reverse.head?) h
  simp only [depsExpr, propertyExpr, String.data_append, List.reverse_append] at h'
  simp at h'

theorem depsOf_strictJq_none (roots : List String) (reg : List (String × List String))
    (recs : List (String × String × String)) (n : String) (h : n ∉ reg.map Prod.fst) :
    depsOf (strictJq roots reg recs) n = none := by
  have h1 : registryJq roots reg (depsExpr n) = none := by
    have := depsOf_registryJq_none roots reg n h
    simpa [depsOf] using this
  have h2 : ∀ property, recs.find? (fun p => propertyExpr p.1 property == depsExpr n) = none := by
    intro property
    rw [List.find?_eq_none]
    intro p _
    simpa using depsExpr_ne_propertyExpr n p.1 property
  simp [depsOf, strictJq, h1, h2]

/-! ## The install loop -/

theorem runGoroutines_calls {σ : Type} (sys : Sys σ) :
    ∀ (order : List String) (s : Install σ),
      ∃ done, (runGoroutines sys order s).1.calls = s.calls ++ done ∧ done.Sublist order ∧
        ((runGoroutines sys order s).2 = Run.ok () →
          done = order ∧ (runGoroutines sys order s).1.wg = s.wg - order.length) := by
  intro order
  induction order with
  | nil =>
    intro s
    exact ⟨[], by simp [runGoroutines], List.Sublist.refl _, fun _ => by simp [runGoroutines]⟩
  | cons dep rest ih =>
    intro s
    cases hr : (installDep sys dep s.proc).2 with
    | ok u =>
      obtain ⟨done, hcalls, hsub, hok⟩ := ih (goroutine sys dep s).1
      have hstep : runGoroutines sys (dep :: rest) s =
          runGoroutines sys rest (goroutine sys dep s).1 := by
        simp [runGoroutines, goroutine, hr]
      refine ⟨dep :: done, ?_, hsub.cons_cons dep, fun hres => ?_⟩
      · rw [hstep, hcalls]
        simp [goroutine]
      · rw [hstep] at hres ⊢
        obtain ⟨hdone, hwg⟩ := hok hres
        refine ⟨by rw [hdone], ?_⟩
        rw [hwg]
        simp only [goroutine, List.length_cons]
        omega
    | panicked =>
      refine ⟨[dep], ?_, ?_, fun hres => ?_⟩
      · simp [runGoroutines, goroutine, hr]
      · exact List.Sublist.cons_cons dep (List.nil_sublist rest)
      · simp [runGoroutines, goroutine, hr] at hres
    | outOfFuel =>
      refine ⟨[dep], ?_, ?_, fun hres => ?_⟩
      · simp [runGoroutines, goroutine, hr]
      · exact List.Sublist.cons_cons dep (List.nil_sublist rest)
      · simp [runGoroutines, goroutine, hr] at hres

/-! ## Claims about the resolver and the install loop -/

/-- C1: over a finite registry, when the lookup succeeds for every name
reachable from the roots, `getDeps` returns a list (the same for every fuel
above the number of registry names) whose members are exactly the names
reachable from the roots by zero or more "depends on" edges. -/
theorem getDeps_eq_reachable (jq : String → Option String) (names roots : List String)
    (hfin : ∀ n, n ∉ names → depsOf jq n = none)
    (hroots : rootsOf jq = some roots)
    (hok : ∀ n, Reachable jq roots n → depsOf jq n ≠ none) :
    ∃ ks, (∀ fuel, names.length < fuel → getDeps jq fuel = Run.ok ks) ∧
      ∀ n, n ∈ ks ↔ Reachable jq roots n := by
  cases hg : getDeps jq (names.length + 1) with
  | ok ks =>
    refine ⟨ks, fun fuel hfuel => ?_, (getDeps_ok_spec jq _ roots ks hroots hg).2.1⟩
    rw [getDeps_fuel_eq jq names hfin fuel hfuel, hg]
  | panicked =>
    obtain ⟨n, hn, hnone⟩ := getDeps_panicked_spec jq _ roots hroots hg
    exact absurd hnone (hok n hn)
  | outOfFuel =>
    exact absurd hg (getDeps_ne_outOfFuel jq names hfin _ (Nat.lt_succ_self _))

/-- Witness of C1: roots [A], A -> [B, C], B -> [C], C -> [] gives {A, B, C}. -/
theorem getDeps_eq_reachable_witness :
    getDeps jqDiamond 4 = Run.ok ["A", "B", "C"] ∧
      ∀ n, n ∈ ["A", "B", "C"] ↔ Reachable jqDiamond ["A"] n := by
  obtain ⟨ks, hks, hmem⟩ := getDeps_eq_reachable jqDiamond ["A", "B", "C"] ["A"]
    (depsOf_registryJq_none ["A"] [("A", ["B", "C"]), ("B", ["C"]), ("C", [])]) (by decide)
    (reachable_entry_of_closed jqDiamond ["A"] ["A", "B", "C"]
      (by decide) (by decide) (by decide))
  have h4 : getDeps jqDiamond 4 = Run.ok ks := hks 4 (by decide)
  have hks' : ks = ["A", "B", "C"] := by
    have : getDeps jqDiamond 4 = Run.ok ["A", "B", "C"] := by decide
    rw [this] at h4
    exact (Run.ok.inj h4).symm
  subst hks'
  exact ⟨h4, hmem⟩

/-- C2: over a finite registry the traversal terminates, cycles included.
Marking a name that has a registry entry and was not visited strictly lowers
the number of unvisited registry names; every call of `getTransitiveDepsOf`,
and `getDeps`, gives one result for every fuel above the number of registry
names, and that result is never `outOfFuel`; when every name reachable from
`dep` has an entry, the call returns a visited map. -/
theorem getTransitiveDepsOf_terminates (jq : String → Option String) (names : List String)
    (hfin : ∀ n, n ∉ names → depsOf jq n = none) :
    (∀ dep v, GoMap.index v dep ≠ true → depsOf jq dep ≠ none →
      unvisited names (GoMap.store v dep true) < unvisited names v) ∧
    (∀ dep v, ∃ r, r ≠ Run.outOfFuel ∧
      ∀ fuel, names.length < fuel → getTransitiveDepsOf jq fuel dep v = r) ∧
    (∀ dep v, (∀ n, Relation.ReflTransGen (DependsOn jq) dep n → depsOf jq n ≠ none) →
      ∃ v', ∀ fuel, names.length < fuel → getTransitiveDepsOf jq fuel dep v = Run.ok v') ∧
    (∃ r, r ≠ Run.outOfFuel ∧ ∀ fuel, names.length < fuel → getDeps jq fuel = r) := by
  have hne : ∀ dep v, getTransitiveDepsOf jq (names.length + 1) dep v ≠ Run.outOfFuel :=
    fun dep v => getTransitiveDepsOf_ne_outOfFuel jq names hfin _ dep v
      (Nat.lt_succ_of_le (unvisited_le_length names v))
  have heq : ∀ dep v fuel, names.length < fuel →
      getTransitiveDepsOf jq fuel dep v = getTransitiveDepsOf jq (names.length + 1) dep v :=
    fun dep v fuel hfuel => getTransitiveDepsOf_fuel_le jq _ _ hfuel dep v (hne dep v)
  refine ⟨?_, ?_, ?_, ?_⟩
  · intro dep v hv hdep
    apply unvisited_store_lt names v dep hv
    by_contra hn
    exact hdep (hfin dep hn)
  · intro dep v
    exact ⟨_, hne dep v, heq dep v⟩
  · intro dep v hall
    cases hg : getTransitiveDepsOf jq (names.length + 1) dep v with
    | ok v' => exact ⟨v', fun fuel hfuel => by rw [heq dep v fuel hfuel, hg]⟩
    | panicked =>
      obtain ⟨n, hn, hnone⟩ := getTransitiveDepsOf_panicked jq _ dep v hg
      exact absurd hnone (hall n hn)
    | outOfFuel => exact absurd hg (hne dep v)
  · exact ⟨_, getDeps_ne_outOfFuel jq names hfin _ (Nat.lt_succ_self _),
      fun fuel hfuel => getDeps_fuel_eq jq names hfin fuel hfuel⟩

/-- Witness of C2: roots [X] with X -> [X] terminates with result {X}. -/
theorem getTransitiveDepsOf_terminates_witness :
    (∀ fuel, 1 < fuel → getTransitiveDepsOf jqSelf fuel "X" [] = Run.ok [("X", true)]) ∧
    (∀ fuel, 1 < fuel → getDeps jqSelf fuel = Run.ok ["X"]) := by
  have h := getTransitiveDepsOf_terminates jqSelf ["X"]
    (depsOf_registryJq_none ["X"] [("X", ["X"])])
  constructor
  · obtain ⟨r, _, hr⟩ := h.2.1 "X" []
    intro fuel hfuel
    have h2 : getTransitiveDepsOf jqSelf 2 "X" [] = Run.ok [("X", true)] := by decide
    rw [hr fuel hfuel, ← hr 2 (by decide), h2]
  · obtain ⟨r, _, hr⟩ := h.2.2.2
    intro fuel hfuel
    have h2 : getDeps jqSelf 2 = Run.ok ["X"] := by decide
    rw [hr fuel hfuel, ← hr 2 (by decide), h2]

/-- C3, as stated, fails in its last clause: in the diamond scenario with the
repo of A broken, `getDeps` returns A, B, C, and when the goroutine of A runs
first its `installDep` panics and ends the program, so `installDep` is never
called for B or C. -/
theorem installLoop_not_each_name_once :
    ¬ ∀ (jq : String → Option String) (sys : Sys (List String)) (fuel : Nat)
        (ks order : List String) (st : Proc (List String)),
      (∀ e, sys.jq st.world e = jq e) → getDeps jq fuel = Run.ok ks → order.Perm ks →
      ∀ n ∈ ks, (installLoop sys ks order st).1.calls.count n = 1 := by
  intro h
  have hB := h jqDiamondFull (diskSys jqDiamondFull ["https://h/a.git"]) 4
    ["A", "B", "C"] ["A", "B", "C"] (freshProc []) (fun _ => rfl) (by decide)
    (List.Perm.refl _) "B" (by decide)
  have h0 : (installLoop (diskSys jqDiamondFull ["https://h/a.git"]) ["A", "B", "C"]
      ["A", "B", "C"] (freshProc [])).1.calls.count "B" = 0 := by decide
  rw [h0] at hB
  exact absurd hB (by decide)

/-- C3, amended: a list returned by `getDeps` has no duplicate entries,
contains each name reachable from the roots exactly once and no other name,
and its length is the number of distinct reachable names, also when roots or
dependency lists repeat a name.  The install loop over that list, in whatever
order its goroutines run, calls `installDep` at most once per name and never
for a name that is not resolved; when no call panics it calls `installDep`
exactly once per resolved name and the wait group is back at zero.  Over a
finite registry whose reachable names all have an entry such a list is
returned. -/
theorem getDeps_installLoop_each_name_once (jq : String → Option String)
    (names roots : List String)
    (hfin : ∀ n, n ∉ names → depsOf jq n = none)
    (hroots : rootsOf jq = some roots) :
    (∀ fuel ks, getDeps jq fuel = Run.ok ks →
      ks.Nodup ∧ (∀ n, Reachable jq roots n → ks.count n = 1) ∧
      (∀ n, ¬ Reachable jq roots n → ks.count n = 0) ∧
      (∀ s : Finset String, (∀ n, n ∈ s ↔ Reachable jq roots n) → ks.length = s.card) ∧
      ∀ (σ : Type) (sys : Sys σ) (order : List String) (st : Proc σ), order.Perm ks →
        (∀ n, (installLoop sys ks order st).1.calls.count n ≤ 1) ∧
        (∀ n, ¬ Reachable jq roots n → (installLoop sys ks order st).1.calls.count n = 0) ∧
        ((installLoop sys ks order st).2 = Run.ok () →
          (installLoop sys ks order st).1.wg = 0 ∧
          ∀ n, Reachable jq roots n → (installLoop sys ks order st).1.calls.count n = 1)) ∧
    ((∀ n, Reachable jq roots n → depsOf jq n ≠ none) →
      ∃ ks, ∀ fuel, names.length < fuel → getDeps jq fuel = Run.ok ks) := by
  constructor
  · intro fuel ks hg
    obtain ⟨hnd, hmem, _⟩ := getDeps_ok_spec jq fuel roots ks hroots hg
    have hone : ∀ n, Reachable jq roots n → ks.count n = 1 :=
      fun n hn => List.count_eq_one_of_mem hnd ((hmem n).mpr hn)
    have hzero : ∀ n, ¬ Reachable jq roots n → ks.count n = 0 :=
      fun n hn => List.count_eq_zero_of_not_mem (fun h => hn ((hmem n).mp h))
    refine ⟨hnd, hone, hzero, fun s hs => ?_, ?_⟩
    · have : ks.toFinset = s := by
        ext n
        rw [List.mem_toFinset, hmem, hs]
      rw [← this, List.toFinset_card_of_nodup hnd]
    · intro σ sys order st hperm
      obtain ⟨done, hcalls, hsub, hok⟩ :=
        runGoroutines_calls sys order { proc := st, wg := ks.length, calls := [] }
      have hc : (installLoop sys ks order st).1.calls = done := by
        simpa [installLoop] using hcalls
      have hle : ∀ n, done.count n ≤ ks.count n := fun n =>
        le_trans (hsub.count_le n) (le_of_eq (hperm.count_eq n))
      refine ⟨fun n => ?_, fun n hn => ?_, fun hres => ?_⟩
      · rw [hc]
        exact le_trans (hle n) (List.nodup_iff_count_le_one.mp hnd n)
      · rw [hc]
        exact Nat.le_zero.mp (le_trans (hle n) (le_of_eq (hzero n hn)))
      · obtain ⟨hdone, hwg⟩ := hok (by simpa [installLoop] using hres)
        constructor
        · have : (installLoop sys ks order st).1.wg = ks.length - order.length := by
            simpa [installLoop] using hwg
          rw [this, hperm.length_eq, Nat.sub_self]
        · intro n hn
          rw [hc, hdone, hperm.count_eq n]
          exact hone n hn
  · intro hok
    cases hg : getDeps jq (names.length + 1) with
    | ok ks =>
      exact ⟨ks, fun fuel hfuel => by rw [getDeps_fuel_eq jq names hfin fuel hfuel, hg]⟩
    | panicked =>
      obtain ⟨n, hn, hnone⟩ := getDeps_panicked_spec jq _ roots hroots hg
      exact absurd hnone (hok n hn)
    | outOfFuel =>
      exact absurd hg (getDeps_ne_outOfFuel jq names hfin _ (Nat.lt_succ_self _))

/-- Witness of the amended C3: roots [A, A, B] and A -> [B, C, B] give A, B, C
once each, and the install loop run in the order C, A, B on an empty disk
calls `installDep` once for each of them. -/
theorem getDeps_installLoop_each_name_once_witness :
    getDeps jqDupFull 4 = Run.ok ["A", "B", "C"] ∧ ["A", "B", "C"].Nodup ∧
      ["A", "B", "C"].count "C" = 1 ∧ ["A", "B", "C"].count "D" = 0 ∧
      (installLoop (diskSys jqDupFull []) ["A", "B", "C"] ["C", "A", "B"] (freshProc [])).2 =
        Run.ok () ∧
      (installLoop (diskSys jqDupFull []) ["A", "B", "C"] ["C", "A", "B"]
        (freshProc [])).1.calls.count "C" = 1 := by
  have hC : Reachable jqDupFull ["A", "A", "B"] "C" :=
    ⟨"A", by simp, Relation.ReflTransGen.single ⟨["B", "C", "B"], by decide, by simp⟩⟩
  have h := (getDeps_installLoop_each_name_once jqDupFull ["A", "B", "C"] ["A", "A", "B"]
    (depsOf_strictJq_none ["A", "A", "B"] [("A", ["B", "C", "B"]), ("B", ["C"]), ("C", [])]
      [("A", "https://h/a.git", "v1.0.0"), ("B", "https://h/b.git", "v2.0.0"),
       ("C", "https://h/c.git", "v0.3.0")])
    (by decide)).1 4 ["A", "B", "C"] (by decide)
  have hloop := h.2.2.2.2 (List String) (diskSys jqDupFull []) ["C", "A", "B"] (freshProc [])
    (by decide)
  exact ⟨by decide, h.1, h.2.1 "C" hC, by decide, by decide,
    (hloop.2.2 (by decide)).2 "C" hC⟩

/-- C6: over a finite registry, `getDeps` panics, returning no list at all,
when the root query fails or when the lookup fails for some name reachable
from the roots; and whenever `getDeps` returns a list, the lookup succeeded
for every reachable name. -/
theorem getDeps_panics_on_failed_lookup (jq : String → Option String) (names : List String)
    (hfin : ∀ n, n ∉ names → depsOf jq n = none) :
    (rootsOf jq = none → ∀ fuel, getDeps jq fuel = Run.panicked) ∧
    (∀ roots, rootsOf jq = some roots → (∃ n, Reachable jq roots n ∧ depsOf jq n = none) →
      ∀ fuel, names.length < fuel → getDeps jq fuel = Run.panicked) ∧
    (∀ roots fuel ks, rootsOf jq = some roots → getDeps jq fuel = Run.ok ks →
      ∀ n, Reachable jq roots n → ∃ xs, depsOf jq n = some xs) := by
  refine ⟨fun h fuel => getDeps_of_no_roots h fuel, ?_, ?_⟩
  · rintro roots hroots ⟨n, hn, hnone⟩ fuel hfuel
    cases hg : getDeps jq fuel with
    | ok ks =>
      obtain ⟨xs, hxs⟩ := (getDeps_ok_spec jq fuel roots ks hroots hg).2.2 n hn
      rw [hnone] at hxs
      cases hxs
    | panicked => rfl
    | outOfFuel => exact absurd hg (getDeps_ne_outOfFuel jq names hfin fuel hfuel)
  · intro roots fuel ks hroots hg
    exact (getDeps_ok_spec jq fuel roots ks hroots hg).2.2

/-- Witness of C6: root A depends on B, and B has no entry: `getDeps` panics. -/
theorem getDeps_panics_on_failed_lookup_witness :
    Reachable jqMissing ["A"] "B" ∧ depsOf jqMissing "B" = none ∧
      ∀ fuel, 1 < fuel → getDeps jqMissing fuel = Run.panicked := by
  have hB : Reachable jqMissing ["A"] "B" :=
    ⟨"A", by simp, Relation.ReflTransGen.single ⟨["B"], by decide, by simp⟩⟩
  have hnone : depsOf jqMissing "B" = none := by decide
  exact ⟨hB, hnone,
    (getDeps_panics_on_failed_lookup jqMissing ["A"]
      (depsOf_registryJq_none ["A"] [("A", ["B"])])).2.1
      ["A"] (by decide) ⟨"B", hB, hnone⟩⟩

/-- C10: a call `getTransitiveDepsOf(dep, v)` that returns keeps every name
of `v` (marks and keys are never removed) and leaves `dep` marked; when `dep`
is already marked in `v` the call returns `v` unchanged whatever the config
provider answers, so without a query for `dep`. -/
theorem getTransitiveDepsOf_visited_invariant (jq : String → Option String) (dep : String)
    (v : GoMap) :
    (∀ fuel v', getTransitiveDepsOf jq fuel dep v = Run.ok v' →
      (∀ n, GoMap.index v n = true → GoMap.index v' n = true) ∧
      (∀ n, n ∈ getKeys v → n ∈ getKeys v') ∧ GoMap.index v' dep = true) ∧
    (GoMap.index v dep = true → ∀ (jq' : String → Option String) (fuel : Nat),
      getTransitiveDepsOf jq' (fuel + 1) dep v = Run.ok v) := by
  constructor
  · intro fuel v' h
    obtain ⟨g, hdep⟩ := getTransitiveDepsOf_grows jq fuel dep v v' h
    exact ⟨g.mono, g.keys, hdep⟩
  · intro hv jq' fuel
    simp [getTransitiveDepsOf, hv]

/-- Witness of C10: from the map {A}, visiting B in the diamond adds B and C
and keeps A; visiting A again changes nothing, even with a provider that
fails on every query. -/
theorem getTransitiveDepsOf_visited_invariant_witness :
    getTransitiveDepsOf jqDiamond 3 "B" [("A", true)] =
        Run.ok [("A", true), ("B", true), ("C", true)] ∧
      GoMap.index [("A", true), ("B", true), ("C", true)] "A" = true ∧
      GoMap.index [("A", true), ("B", true), ("C", true)] "B" = true ∧
      getTransitiveDepsOf (fun _ => none) 1 "A" [("A", true)] = Run.ok [("A", true)] := by
  have h := getTransitiveDepsOf_visited_invariant jqDiamond "B" [("A", true)]
  have h1 := h.1 3 [("A", true), ("B", true), ("C", true)] (by decide)
  exact ⟨by decide, h1.1 "A" (by decide), h1.2.2,
    (getTransitiveDepsOf_visited_invariant jqDiamond "A" [("A", true)]).2 (by decide)
      (fun _ => none) 0⟩

/-! ## Target paths -/

theorem append_sep_unique {α : Type} (sep : α) :
    ∀ (a c b d : List α), sep ∉ a → sep ∉ c → a ++ sep :: b = c ++ sep :: d → a = c ∧ b = d := by
  intro a
  induction a with
  | nil =>
    intro c b d _ hc h
    cases c with
    | nil => simpa using h
    | cons y c =>
      simp only [List.nil_append, List.cons_append, List.cons.injEq] at h
      exact absurd (h.1 ▸ List.mem_cons_self _ _) hc
  | cons x a ih =>
    intro c b d ha hc h
    cases c with
    | nil =>
      simp only [List.nil_append, List.cons_append, List.cons.injEq] at h
      exact absurd (h.1 ▸ List.mem_cons_self _ _) ha
    | cons y c =>
      simp only [List.cons_append, List.cons.injEq] at h
      obtain ⟨hac, hbd⟩ := ih c b d (fun m => ha (List.mem_cons_of_mem _ m))
        (fun m => hc (List.mem_cons_of_mem _ m)) h.2
      exact ⟨by rw [h.1, hac], hbd⟩

theorem getTargetDir_data (dep version : String) :
    (getTargetDir dep version).data = dir.data ++ ('/' :: (dep.data ++ '/' :: version.data)) := by
  simp [getTargetDir, String.data_append]

/-! ## Claims about the installer and the source globs -/

/-- C5, as stated, fails: the name `a/b` with version `c` and the name `a`
with version `b/c` have the same target path. -/
theorem getTargetDir_not_injective :
    ¬ ∀ n1 v1 n2 v2 : String,
      getTargetDir n1 v1 = getTargetDir n2 v2 → n1 = n2 ∧ v1 = v2 :=
  fun h => absurd (h "a/b" "c" "a" "b/c" (by decide)).1 (by decide)

/-- C5, amended: on pairs whose names contain no `/`, or whose versions
contain no `/`, equal target paths come from equal names and equal versions. -/
theorem getTargetDir_injective_of_no_slash (n1 v1 n2 v2 : String)
    (hslash : ('/' ∉ n1.data ∧ '/' ∉ n2.data) ∨ ('/' ∉ v1.data ∧ '/' ∉ v2.data))
    (heq : getTargetDir n1 v1 = getTargetDir n2 v2) : n1 = n2 ∧ v1 = v2 := by
  have h := congrArg String.data heq
  rw [getTargetDir_data, getTargetDir_data] at h
  have h1 := List.cons.inj (List.append_cancel_left h)
  have h2 : n1.data ++ '/' :: v1.data = n2.data ++ '/' :: v2.data := h1.2
  rcases hslash with ⟨ha, hc⟩ | ⟨hb, hd⟩
  · obtain ⟨hn, hv⟩ := append_sep_unique '/' _ _ _ _ ha hc h2
    exact ⟨String.ext hn, String.ext hv⟩
  · have h3 := congrArg List.reverse h2
    simp only [List.reverse_append, List.reverse_cons, List.append_assoc,
      List.singleton_append] at h3
    obtain ⟨hv, hn⟩ := append_sep_unique '/' _ _ _ _
      (by simpa using hb) (by simpa using hd) h3
    exact ⟨String.ext (List.reverse_injective hn), String.ext (List.reverse_injective hv)⟩

/-- Witness of the amended C5. -/
theorem getTargetDir_injective_of_no_slash_witness :
    getTargetDir "prelude" "v4.1.0" = getTargetDir "prelude" "v4.1.0" ∧
      ("prelude" = "prelude" ∧ "v4.1.0" = "v4.1.0") :=
  ⟨rfl, getTargetDir_injective_of_no_slash "prelude" "v4.1.0" "prelude" "v4.1.0"
    (Or.inl ⟨by decide, by decide⟩) rfl⟩

theorem installDep_of_present {σ : Type} (sys : Sys σ) (dep repo version : String)
    (st : Proc σ)
    (hrepo : getProperty (sys.jq st.world) dep "repo" = Run.ok repo)
    (hversion : getProperty (sys.jq st.world) dep "version" = Run.ok version)
    (hexists : sys.stat st.world (getTargetDir dep version) = true) :
    installDep sys dep st = (st, Run.ok ()) := by
  simp [installDep, hrepo, hversion, hexists]

/-- C4: when the lookups of `repo` and `version` succeed and the target path
exists, `installDep` returns normally with the process state unchanged: no
command was run (no `git clone`), nothing was printed, the file system is the
same.  Hence, when a successful clone leaves its destination in place and does
not change the answers of the config provider, a second `installDep` after a
successful first one returns normally and changes nothing. -/
theorem installDep_idempotent {σ : Type} (sys : Sys σ) (dep : String) :
    (∀ (st : Proc σ) (repo version : String),
      getProperty (sys.jq st.world) dep "repo" = Run.ok repo →
      getProperty (sys.jq st.world) dep "version" = Run.ok version →
      sys.stat st.world (getTargetDir dep version) = true →
      installDep sys dep st = (st, Run.ok ())) ∧
    ((∀ repo version target w, (sys.run (cloneCmd repo version target) w).1 = true →
        sys.stat (sys.run (cloneCmd repo version target) w).2 target = true) →
      (∀ repo version target w e,
        sys.jq (sys.run (cloneCmd repo version target) w).2 e = sys.jq w e) →
      ∀ st st1 : Proc σ, installDep sys dep st = (st1, Run.ok ()) →
        installDep sys dep st1 = (st1, Run.ok ())) := by
  refine ⟨fun st repo version h1 h2 h3 => installDep_of_present sys dep repo version st h1 h2 h3,
    ?_⟩
  intro hfetch hstable st st1 h
  unfold installDep at h
  cases hrepo : getProperty (sys.jq st.world) dep "repo" with
  | panicked => rw [hrepo] at h; simp at h
  | outOfFuel => rw [hrepo] at h; simp at h
  | ok repo =>
    cases hversion : getProperty (sys.jq st.world) dep "version" with
    | panicked => rw [hrepo, hversion] at h; simp at h
    | outOfFuel => rw [hrepo, hversion] at h; simp at h
    | ok version =>
      rw [hrepo, hversion] at h
      simp only at h
      by_cases hex : sys.stat st.world (getTargetDir dep version) = true
      · simp only [hex, if_true, Prod.mk.injEq, and_true] at h
        subst h
        exact installDep_of_present sys dep repo version st hrepo hversion hex
      · simp only [hex] at h
        by_cases hrun : (sys.run (cloneCmd repo version (getTargetDir dep version))
            st.world).1 = true
        · simp only [execRun, println, hrun, if_true, Prod.mk.injEq, and_true,
            Bool.false_eq_true, if_false] at h
          have hw : st1.world =
              (sys.run (cloneCmd repo version (getTargetDir dep version)) st.world).2 := by
            rw [← h]
          have hjq : sys.jq st1.world = sys.jq st.world := by
            funext e
            rw [hw, hstable]
          apply installDep_of_present sys dep repo version st1
          · rw [hjq]; exact hrepo
          · rw [hjq]; exact hversion
          · rw [hw]; exact hfetch _ _ _ _ hrun
        · simp [execRun, println, hrun] at h

/-- Witness of C4: with `.spacchetti/A/v1.0.0` present, installing A changes
nothing; from an empty disk, after the first install a second one changes
nothing. -/
theorem installDep_idempotent_witness :
    installDep (diskSys jqDiamondFull []) "A" (freshProc [".spacchetti/A/v1.0.0"]) =
        (freshProc [".spacchetti/A/v1.0.0"], Run.ok ()) ∧
      installDep (diskSys jqDiamondFull []) "A"
          (installDep (diskSys jqDiamondFull []) "A" (freshProc [])).1 =
        ((installDep (diskSys jqDiamondFull []) "A" (freshProc [])).1, Run.ok ()) := by
  have h := installDep_idempotent (diskSys jqDiamondFull []) "A"
  refine ⟨h.1 (freshProc [".spacchetti/A/v1.0.0"]) "https://h/a.git" "v1.0.0"
    (by decide) (by decide) (by decide),
    h.2 ?_ ?_ (freshProc []) _ (Prod.ext rfl (by decide))⟩
  · intro repo version target w hrun
    simp only [diskSys, cloneCmd] at hrun ⊢
    split at hrun
    · simp at hrun
    · simp
  · intro repo version target w e
    rfl

/-- C7: when the lookups of `repo` and `version` succeed and the target path
does not exist, `installDep` runs exactly one command, `git clone` with
`--branch version`, the repo as source and the target path as destination, and
it returns normally exactly when that command succeeds and panics exactly when
it fails. -/
theorem installDep_fetches_once {σ : Type} (sys : Sys σ) (dep repo version : String)
    (st : Proc σ)
    (hrepo : getProperty (sys.jq st.world) dep "repo" = Run.ok repo)
    (hversion : getProperty (sys.jq st.world) dep "version" = Run.ok version)
    (habsent : sys.stat st.world (getTargetDir dep version) = false) :
    (installDep sys dep st).1.cmds =
        st.cmds ++ [["git", "clone", "-c", "advice.detachedHead=false", "--branch", version,
          repo, getTargetDir dep version]] ∧
      (installDep sys dep st).1.world =
        (sys.run (cloneCmd repo version (getTargetDir dep version)) st.world).2 ∧
      ((installDep sys dep st).2 = Run.ok () ↔
        (sys.run (cloneCmd repo version (getTargetDir dep version)) st.world).1 = true) ∧
      ((installDep sys dep st).2 = Run.panicked ↔
        (sys.run (cloneCmd repo version (getTargetDir dep version)) st.world).1 = false) := by
  cases hrun : (sys.run ["git", "clone", "-c", "advice.detachedHead=false", "--branch",
      version, repo, getTargetDir dep version] st.world).1 <;>
    simp [installDep, hrepo, hversion, habsent, execRun, println, hrun, cloneCmd]

/-- Witness of C7: on an empty disk installing A runs the one clone and
succeeds; with the repo of A broken it runs the one clone and panics. -/
theorem installDep_fetches_once_witness :
    (installDep (diskSys jqDiamondFull []) "A" (freshProc [])).1.cmds =
        [["git", "clone", "-c", "advice.detachedHead=false", "--branch", "v1.0.0",
          "https://h/a.git", ".spacchetti/A/v1.0.0"]] ∧
      (installDep (diskSys jqDiamondFull []) "A" (freshProc [])).2 = Run.ok () ∧
      (installDep (diskSys jqDiamondFull ["https://h/a.git"]) "A" (freshProc [])).1.cmds =
        [["git", "clone", "-c", "advice.detachedHead=false", "--branch", "v1.0.0",
          "https://h/a.git", ".spacchetti/A/v1.0.0"]] ∧
      (installDep (diskSys jqDiamondFull ["https://h/a.git"]) "A" (freshProc [])).2 =
        Run.panicked := by
  have h1 := installDep_fetches_once (diskSys jqDiamondFull []) "A" "https://h/a.git" "v1.0.0"
    (freshProc []) (by decide) (by decide) (by decide)
  have h2 := installDep_fetches_once (diskSys jqDiamondFull ["https://h/a.git"]) "A"
    "https://h/a.git" "v1.0.0" (freshProc []) (by decide) (by decide) (by decide)
  exact ⟨h1.1, h1.2.2.1.mpr (by decide), h2.1, h2.2.2.2.mpr (by decide)⟩

theorem collectGlobs_spec (jq : String → Option String) (version : String → String) :
    ∀ (deps : List String) (globs : GoMap),
      (∀ n ∈ deps, getProperty jq n "version" = Run.ok (version n)) →
      ∃ globs', collectGlobs jq deps globs = Run.ok globs' ∧
        (GoMap.WF globs → GoMap.WF globs') ∧
        ∀ g, g ∈ getKeys globs' ↔
          g ∈ getKeys globs ∨ ∃ n ∈ deps, g = sourceGlob n (version n) := by
  intro deps
  induction deps with
  | nil =>
    intro globs _
    exact ⟨globs, rfl, fun h => h, by simp⟩
  | cons dep deps ih =>
    intro globs hver
    obtain ⟨globs', hrun, hwf, hmem⟩ := ih (GoMap.store globs (sourceGlob dep (version dep)) true)
      (fun n hn => hver n (List.mem_cons_of_mem _ hn))
    refine ⟨globs', ?_, fun h => hwf (wf_store _ _ h), fun g => ?_⟩
    · simp only [collectGlobs, hver dep (List.mem_cons_self _ _)]
      exact hrun
    · rw [hmem, mem_getKeys_store]
      constructor
      · rintro ((h | h) | ⟨n, hn, h⟩)
        · exact Or.inl h
        · exact Or.inr ⟨dep, List.mem_cons_self _ _, h⟩
        · exact Or.inr ⟨n, List.mem_cons_of_mem _ hn, h⟩
      · rintro (h | ⟨n, hn, h⟩)
        · exact Or.inl (Or.inl h)
        · rcases List.mem_cons.mp hn with rfl | hn
          · exact Or.inl (Or.inr h)
          · exact Or.inr ⟨n, hn, h⟩

/-- C8: for every list of resolved names whose `version` lookups succeed, the
loop of `getSources` followed by `getKeys` gives a list without duplicates
whose members are exactly the globs `getTargetDir(name, version(name)) +
"/src/**/*.purs"` of the names; and `getSources` returns that list for the
names that `getDeps` resolved.  The globs are computed from the answers of the
config provider alone: `os.Stat` is not consulted for any target path. -/
theorem getSources_globs {σ : Type} (sys : Sys σ) (version : String → String) :
    (∀ (jq : String → Option String) (deps : List String),
      (∀ n ∈ deps, getProperty jq n "version" = Run.ok (version n)) →
      ∃ globs, collectGlobs jq deps [] = Run.ok globs ∧ (getKeys globs).Nodup ∧
        ∀ g, g ∈ getKeys globs ↔
          ∃ n ∈ deps, g = getTargetDir n (version n) ++ "/src/**/*.purs") ∧
    (∀ (fuel : Nat) (st st1 : Proc σ) (deps : List String),
      ensureSpacchettiConfig sys st = (st1, Run.ok ()) →
      getDeps (sys.jq st1.world) fuel = Run.ok deps →
      (∀ n ∈ deps, getProperty (sys.jq st1.world) n "version" = Run.ok (version n)) →
      ∃ gs, getSources sys fuel st = (st1, Run.ok gs) ∧ gs.Nodup ∧
        ∀ g, g ∈ gs ↔ ∃ n ∈ deps, g = getTargetDir n (version n) ++ "/src/**/*.purs") := by
  have hloop : ∀ (jq : String → Option String) (deps : List String),
      (∀ n ∈ deps, getProperty jq n "version" = Run.ok (version n)) →
      ∃ globs, collectGlobs jq deps [] = Run.ok globs ∧ (getKeys globs).Nodup ∧
        ∀ g, g ∈ getKeys globs ↔
          ∃ n ∈ deps, g = getTargetDir n (version n) ++ "/src/**/*.purs" := by
    intro jq deps hver
    obtain ⟨globs, hrun, hwf, hmem⟩ := collectGlobs_spec jq version deps [] hver
    refine ⟨globs, hrun, (hwf wf_nil).1, fun g => ?_⟩
    rw [hmem]
    simp [getKeys, sourceGlob]
  refine ⟨hloop, ?_⟩
  intro fuel st st1 deps hcfg hdeps hver
  obtain ⟨globs, hrun, hnd, hmem⟩ := hloop (sys.jq st1.world) deps hver
  refine ⟨getKeys globs, ?_, hnd, hmem⟩
  simp only [getSources, hcfg, hdeps, hrun]

/-- Witness of C8: the three globs of the diamond scenario. -/
theorem getSources_globs_witness :
    getSources (diskSys jqDiamondFull []) 4 (freshProc [config]) =
        (freshProc [config], Run.ok [".spacchetti/A/v1.0.0/src/**/*.purs",
          ".spacchetti/B/v2.0.0/src/**/*.purs", ".spacchetti/C/v0.3.0/src/**/*.purs"]) ∧
      ∃ gs, getSources (diskSys jqDiamondFull []) 4 (freshProc [config]) =
          (freshProc [config], Run.ok gs) ∧ gs.Nodup ∧
        ∀ g, g ∈ gs ↔ ∃ n ∈ ["A", "B", "C"],
          g = getTargetDir n (versionDiamond n) ++ "/src/**/*.purs" :=
  ⟨by decide,
    (getSources_globs (diskSys jqDiamondFull []) versionDiamond).2 4 (freshProc [config])
      (freshProc [config]) ["A", "B", "C"] (by decide) (by decide) (by decide)⟩

end Sbughetti
